import Mathlib

/-!
# Verification of the chunking + hybrid-retrieval core of the Thanaweya-Amma RAG system

Shallow embedding, in Lean 4, of the subject-aware text cleaners, the
structure-aware chunker, the per-subject BM25 candidate selection and the
reciprocal-rank-fusion (RRF) retriever of the repository, together with
theorems settling the frozen specification claims.

Conventions of the embedding:
* Python strings are modelled as `List Char` internally (one entry per Unicode
  code point, matching Python's `len`/indexing) and wrapped into `String` at
  the API boundary.
* Python floats are modelled as exact rationals `ℚ`: the claims are about the
  score formulas, i.e. the real-number semantics of the arithmetic.
* Python's `sorted` (a stable sort) is modelled by `List.mergeSort`, which is
  stable; `defaultdict`/`dict` (insertion-ordered) are modelled by
  association lists with insertion-order preserving update operations.
* External collaborators (the BM25Okapi scoring function of `rank_bm25`, the
  Chroma semantic search, the langchain recursive splitter) are parameters of
  the definitions: the theorems quantify over their outputs.
-/

namespace ThanaweyaRAG

/-! ## Python character-class primitives -/

/-- Python's `str.strip()` / regex `\s` whitespace class (the code-point
whitespace characters relevant to the corpus; ASCII whitespace plus the
common Unicode space characters). -/
def pyIsSpace (c : Char) : Bool :=
  c = ' ' || c = '\t' || c = '\n' || c = '\r' || c = '\x0b' || c = '\x0c' ||
  c = '\u0085' || c = '\u00A0' || c = '\u2028' || c = '\u2029'

/-- Python's regex `\d` / `str.isdigit` decimal-digit class on the scripts
appearing in the corpus: ASCII digits, Arabic-Indic digits and extended
(Eastern) Arabic-Indic digits. -/
def pyIsDigit (c : Char) : Bool :=
  ('0' ≤ c && c ≤ '9') || ('٠' ≤ c && c ≤ '٩') ||
  ('۰' ≤ c && c ≤ '۹')

/-- `s.isdigit()`: non-empty and all characters are digits. -/
def pyIsDigitStr (cs : List Char) : Bool :=
  !cs.isEmpty && cs.all pyIsDigit

/-- `s.strip()` on the character-list representation. -/
def pyStripList (cs : List Char) : List Char :=
  ((cs.dropWhile pyIsSpace).reverse.dropWhile pyIsSpace).reverse

/-- `s.strip()` on `String`. -/
def pyStrip (s : String) : String :=
  String.mk (pyStripList s.data)

/-- `text.split(sep)` for a one-character separator; `splitCh sep [] = [[]]`
like Python's `''.split(sep) == ['']`. -/
def splitCh (sep : Char) : List Char → List (List Char)
  | [] => [[]]
  | c :: cs =>
    if c = sep then [] :: splitCh sep cs
    else
      match splitCh sep cs with
      | p :: ps => (c :: p) :: ps
      | [] => [[c]]

/-- `sep.join(pieces)`. -/
def joinSep (sep : List Char) : List (List Char) → List Char
  | [] => []
  | [p] => p
  | p :: ps => p ++ sep ++ joinSep sep ps

/-- `sep.join(pieces)` for a one-character separator. -/
def joinCh (sep : Char) (ps : List (List Char)) : List Char :=
  joinSep [sep] ps

/-! ## `BaseCleaner.basic_clean` (data_processing.py lines 34-48) -/

/-- `re.match(r'^[-_=]{3,}|^[—–]{3,}$', s)`: either the string starts with
three characters from `[-_=]`, or it consists entirely of at least three
em/en dashes. -/
def isSepRun (s : List Char) : Bool :=
  ((s.take 3).length = 3 && (s.take 3).all (fun c => c = '-' || c = '_' || c = '=')) ||
  (3 ≤ s.length && s.all (fun c => c = '—' || c = '–'))

/-- `re.match(r'^[-=_\s]+$', s)`: non-empty and all characters are
separators or whitespace. -/
def isSepWs (s : List Char) : Bool :=
  !s.isEmpty && s.all (fun c => c = '-' || c = '=' || c = '_' || pyIsSpace c)

/-- The per-line keep condition of `BaseCleaner.basic_clean`: the line
survives iff none of the skip rules fires on its stripped form. -/
def keepLine (line : List Char) : Bool :=
  let s := pyStripList line
  !s.isEmpty &&
  !(pyIsDigitStr s && s.length < 4) &&
  !(s.length < 3 && !(s = ['.'] || s = ['!'] || s = ['?'])) &&
  !isSepRun s &&
  !isSepWs s

/-- `BaseCleaner.basic_clean`: split into lines, drop noise lines, rejoin.
The surviving lines are kept verbatim (unstripped), as in the source. -/
def basicCleanL (cs : List Char) : List Char :=
  joinCh '\n' ((splitCh '\n' cs).filter keepLine)

def basic_clean (s : String) : String :=
  String.mk (basicCleanL s.data)

/-! ## `ArabicCleaner.clean` (data_processing.py lines 50-62) -/

def isLatinLetter (c : Char) : Bool :=
  ('a' ≤ c && c ≤ 'z') || ('A' ≤ c && c ≤ 'Z')

/-- Left-to-right non-overlapping application of
`re.sub(r'\s[a-zA-Z]\s', ' ', line)`. -/
def subIsolated : List Char → List Char
  | c1 :: c2 :: c3 :: rest =>
    if pyIsSpace c1 && isLatinLetter c2 && pyIsSpace c3 then
      ' ' :: subIsolated rest
    else
      c1 :: subIsolated (c2 :: c3 :: rest)
  | l => l

def isArabicPunct (c : Char) : Bool :=
  c = '،' || c = '؛' || c = '؟'

/-- A whitespace character is deleted by `re.sub(r'\s+([،؛؟])', r'\1', text)`
exactly when the next non-whitespace character exists and is one of the three
Arabic punctuation marks. -/
def wsRunHitsPunct (cs : List Char) : Bool :=
  match cs.dropWhile pyIsSpace with
  | c :: _ => isArabicPunct c
  | [] => false

/-- `re.sub(r'\s+([،؛؟])', r'\1', text)`: every maximal whitespace run that
is immediately followed by Arabic punctuation is removed. -/
def squeezePunct : List Char → List Char
  | [] => []
  | c :: cs =>
    if pyIsSpace c && wsRunHitsPunct cs then squeezePunct cs
    else c :: squeezePunct cs

def arabicCleanL (cs : List Char) : List Char :=
  let t := basicCleanL cs
  let ls := (splitCh '\n' t).filter
    (fun l => !(2 < l.count '|' || 5 < l.count '_'))
  squeezePunct (joinCh '\n' (ls.map subIsolated))

/-! ## `MathPhysicsCleaner.clean` (data_processing.py lines 64-71) -/

/-- Tail of the pattern `\.?\s*\d+` at the current position. -/
def tailDotWsDigit (cs : List Char) : Bool :=
  let cs' := match cs with | '.' :: r => r | r => r
  match cs'.dropWhile pyIsSpace with
  | c :: _ => pyIsDigit c
  | [] => false

/-- `re.match` of `^Fig\.?\s*\d+.*$` against one line (the `re.MULTILINE`
substitution empties exactly the matching lines). -/
def figLineMath : List Char → Bool
  | 'F' :: 'i' :: 'g' :: rest => tailDotWsDigit rest
  | _ => false

/-- `text.replace(op, f" {op} ")` for a single-character operator. -/
def padOp (cs : List Char) (op : Char) : List Char :=
  cs.flatMap (fun c => if c = op then [' ', op, ' '] else [c])

/-- `re.sub(r'[ \t]+', ' ', text)`, as a left-to-right scan.  The `fuel`
argument only bounds the recursion (every step consumes at least one
character, so `fuel = length` never runs out). -/
def collapseSpTabF : Nat → List Char → List Char
  | 0, l => l
  | _ + 1, [] => []
  | fuel + 1, c :: cs =>
    if c = ' ' || c = '\t' then
      ' ' :: collapseSpTabF fuel (cs.dropWhile (fun d => d = ' ' || d = '\t'))
    else c :: collapseSpTabF fuel cs

def collapseSpTab (l : List Char) : List Char := collapseSpTabF l.length l

def mathPhysicsCleanL (cs : List Char) : List Char :=
  let t1 := basicCleanL cs
  let t2 := joinCh '\n'
    ((splitCh '\n' t1).map (fun l => if figLineMath l then [] else l))
  let t3 := (['=', '+', '-', '×', '÷']).foldl padOp t2
  collapseSpTab t3

/-! ## `ScienceCleaner.clean` (data_processing.py lines 73-79) -/

def lowerL (cs : List Char) : List Char := cs.map Char.toLower

/-- Strip an exact keyword from the front, returning the remainder. -/
def stripKw : List Char → List Char → Option (List Char)
  | [], rest => some rest
  | _ :: _, [] => none
  | k :: ks, c :: cs => if c = k then stripKw ks cs else none

/-- Tail of the pattern `\.?\s*\(?\d+` at the current position. -/
def tailFigSci (cs : List Char) : Bool :=
  let r1 := match cs with | '.' :: r => r | r => r
  let r2 := r1.dropWhile pyIsSpace
  let r3 := match r2 with | '(' :: r => r | r => r
  match r3 with
  | c :: _ => pyIsDigit c
  | [] => false

/-- `re.match` of `^(Fig|Shape|Figure)\.?\s*\(?\d+\)?.*$` (IGNORECASE)
against one line. -/
def figLineSci (l : List Char) : Bool :=
  let low := lowerL l
  [['f','i','g'], ['s','h','a','p','e'], ['f','i','g','u','r','e']].any
    (fun kw => match stripKw kw low with
      | some rest => tailFigSci rest
      | none => false)

/-- `re.match` of `^\s*[A-Z]\s*$` against one line: optional whitespace
around a single uppercase letter. -/
def singleUpperLine (l : List Char) : Bool :=
  match pyStripList l with
  | [c] => 'A' ≤ c && c ≤ 'Z'
  | _ => false

/-- `re.sub(r'^\s*[·•●]\s*', '- ', line)` on one line. -/
def bulletSub (l : List Char) : List Char :=
  match l.dropWhile pyIsSpace with
  | b :: r =>
    if b = '·' || b = '•' || b = '●' then '-' :: ' ' :: r.dropWhile pyIsSpace
    else l
  | [] => l

def scienceCleanL (cs : List Char) : List Char :=
  let t := basicCleanL cs
  let step := fun l =>
    let l1 := if figLineSci l then [] else l
    let l2 := if singleUpperLine l1 then [] else l1
    bulletSub l2
  joinCh '\n' ((splitCh '\n' t).map step)

/-! ## `EnglishCleaner.clean` (data_processing.py lines 81-85) -/

def isOptionLetter (c : Char) : Bool := 'A' ≤ c && c ≤ 'D'

/-- Left-to-right non-overlapping application of
`re.sub(r'\s+([A-D]\.)\s+', r'\n\1 ', text)`: a maximal whitespace run,
an option letter, a dot and at least one further whitespace character turn
into a line break before the option marker. -/
def subOptionsF : Nat → List Char → List Char
  | 0, l => l
  | _ + 1, [] => []
  | fuel + 1, c :: cs =>
    if pyIsSpace c then
      match cs.dropWhile pyIsSpace with
      | l :: '.' :: w :: rest =>
        if isOptionLetter l && pyIsSpace w then
          '\n' :: l :: '.' :: ' ' :: subOptionsF fuel (rest.dropWhile pyIsSpace)
        else c :: subOptionsF fuel cs
      | _ => c :: subOptionsF fuel cs
    else c :: subOptionsF fuel cs

def subOptionsL (l : List Char) : List Char := subOptionsF l.length l

def englishCleanL (cs : List Char) : List Char :=
  subOptionsL (basicCleanL cs)

/-! ## Cleaner dispatch (data_processing.py lines 156-170) -/

/-- The four cleaning variants of the pipeline (`arabic`, `math`/`physics`,
`chemistry`/`biology`, `english`/default). -/
inductive CleanerKind
  | arabic
  | mathPhysics
  | science
  | english
deriving DecidableEq

/-- `clean` of the selected cleaning strategy. -/
def clean : CleanerKind → String → String
  | .arabic, s => String.mk (arabicCleanL s.data)
  | .mathPhysics, s => String.mk (mathPhysicsCleanL s.data)
  | .science, s => String.mk (scienceCleanL s.data)
  | .english, s => String.mk (englishCleanL s.data)

/-! ## `DocumentStructureChunker` (data_processing.py lines 89-152)

The structural-separator regexes of `DocumentStructureChunker.separators`
are all anchored with `^`, so `re.search(sep, line, re.IGNORECASE)` tests
whether the line *begins* with the pattern. -/

/-- Head character is a decimal digit (`\d` at the current position). -/
def headDigit : List Char → Bool
  | c :: _ => pyIsDigit c
  | [] => false

/-- `\s+X`: at least one whitespace character, then (after the maximal
whitespace run) the sub-pattern `X`. -/
def wsPlusThen (hit : List Char → Bool) : List Char → Bool
  | c :: rest => pyIsSpace c && hit (rest.dropWhile pyIsSpace)
  | [] => false

/-- `^(kw₁|…|kwₙ)\s+\d+` against an already-lowercased line. -/
def kwNumHeader (kws : List (List Char)) (low : List Char) : Bool :=
  kws.any fun kw =>
    match stripKw kw low with
    | some rest => wsPlusThen headDigit rest
    | none => false

/-- The Arabic ordinal alternatives of the third separator regex, verbatim
from the source: `الأول|الثاني|الثالث|الرابع|الخامس|السادس|السابع|الثامن|التاسع|عشر`. -/
def arabicOrdinals : List (List Char) :=
  ["الأول".data, "الثاني".data, "الثالث".data, "الرابع".data, "الخامس".data,
   "السادس".data, "السابع".data, "الثامن".data, "التاسع".data, "عشر".data]

/-- The Arabic structural keywords `الباب|الفصل|الدرس|الوحدة|المحاضرة`. -/
def arabicHeaderKws : List (List Char) :=
  ["الباب".data, "الفصل".data, "الدرس".data, "الوحدة".data, "المحاضرة".data]

/-- `^(الباب|الفصل|الدرس|الوحدة|المحاضرة)\s+(الأول|…|التاسع|عشر|\d+)`. -/
def arabicHeader (low : List Char) : Bool :=
  arabicHeaderKws.any fun kw =>
    match stripKw kw low with
    | some rest =>
        wsPlusThen
          (fun cs => arabicOrdinals.any (fun w => (stripKw w cs).isSome) || headDigit cs)
          rest
    | none => false

/-- `^\d+\s*-\s*` (numbered sections like `1 - Introduction`). -/
def numDashHeader (cs : List Char) : Bool :=
  match cs with
  | c :: _ =>
      pyIsDigit c &&
      (match (cs.dropWhile pyIsDigit).dropWhile pyIsSpace with
       | '-' :: _ => true
       | _ => false)
  | [] => false

/-- `any(re.search(sep, line, re.IGNORECASE) for sep in self.separators)`:
the line begins with one of the four structural-separator patterns. -/
def isHeaderL (line : List Char) : Bool :=
  let low := lowerL line
  kwNumHeader ["chapter".data, "unit".data, "lesson".data, "lecture".data] low ||
  kwNumHeader ["section".data] low ||
  arabicHeader low ||
  numDashHeader low

def is_header (line : String) : Bool := isHeaderL line.data

/-- `line.endswith(('.', ':', '!', '?', '؟'))`. -/
def endsTerminal (cs : List Char) : Bool :=
  match cs.getLast? with
  | some c => c = '.' || c = ':' || c = '!' || c = '?' || c = '؟'
  | none => false

/-- One iteration of the line loop of
`DocumentStructureChunker._reconstruct_paragraphs`: the state is the pair
`(reconstructed, current_para)`. -/
def reconStep (st : List (List Char) × List (List Char)) (rawLine : List Char) :
    List (List Char) × List (List Char) :=
  let recon := st.1
  let para := st.2
  let line := pyStripList rawLine
  if line.isEmpty then
    if !para.isEmpty then (recon ++ [joinCh ' ' para], []) else (recon, para)
  else if isHeaderL line then
    ((if !para.isEmpty then recon ++ [joinCh ' ' para] else recon) ++
      ['\n' :: '\n' :: (line ++ ['\n', '\n'])], [])
  else
    let para' := para ++ [line]
    if endsTerminal line then (recon ++ [joinCh ' ' para'], [])
    else (recon, para')

def reconstructL (cs : List Char) : List Char :=
  let st := (splitCh '\n' cs).foldl reconStep ([], [])
  let recon := if !st.2.isEmpty then st.1 ++ [joinCh ' ' st.2] else st.1
  joinSep ['\n', '\n'] recon

/-- `DocumentStructureChunker._reconstruct_paragraphs`. -/
def reconstruct_paragraphs (s : String) : String :=
  String.mk (reconstructL s.data)

/-! ## `DocumentProcessor.process_element_chunks` (data_processing.py
lines 196-211)

Stage 2 of the chunker (`RecursiveCharacterTextSplitter.split_text`) is
external library code (langchain); `process_element_chunks` therefore takes
the list of chunk texts produced by the splitter as its input, exactly as
the enumeration loop of the source does. -/

structure ChunkMeta where
  subject : String
  filename : String
  source : String
  chunk_id : Nat
deriving DecidableEq

structure Chunk where
  text : String
  metadata : ChunkMeta
deriving DecidableEq

/-- The chunk-record loop: enumerate the splitter's chunks, discard any
whose stripped text is shorter than 50 characters, attach metadata with
`chunk_id` equal to the enumeration index. -/
def process_element_chunks (chunks : List String) (filename source subject : String) :
    List Chunk :=
  chunks.enum.filterMap fun p =>
    if (pyStrip p.2).length < 50 then none
    else some ⟨p.2, ⟨subject, filename, source, p.1⟩⟩

/-! ## Hybrid retrieval (hybrid_retriever.py)

A retrieval candidate dictionary is modelled by `Doc`: its `"text"` key, an
opaque `meta` value standing for all remaining keys (metadata, distance,
similarity score, …), and the `"bm25_score"` key attached by `bm25_search`.
Scores are exact rationals. -/

structure Doc where
  text : String
  meta : Nat
  bm25_score : Option ℚ
deriving DecidableEq

/-- `config.HYBRID_SEARCH_WEIGHTS["bm25"]` (config.py line 34). -/
def W_BM25 : ℚ := 4/10

/-- `config.HYBRID_SEARCH_WEIGHTS["semantic"]` (config.py line 33). -/
def W_SEM : ℚ := 6/10

/-- `config.TOP_K_RETRIEVAL` (config.py line 31). -/
def TOP_K_RETRIEVAL : Nat := 5

/-- `rrf_scores[t] += v` on the insertion-ordered `defaultdict(float)`:
an existing key keeps its position and accumulates, a new key is appended
with initial value `0 + v = v`. -/
def bump : List (String × ℚ) → String → ℚ → List (String × ℚ)
  | [], t, v => [(t, v)]
  | (t', v') :: rest, t, v =>
    if t' = t then (t', v' + v) :: rest else (t', v') :: bump rest t v

/-- `doc_map[t] = d` on the insertion-ordered `dict`: overwrite in place or
append. -/
def setKey : List (String × Doc) → String → Doc → List (String × Doc)
  | [], t, d => [(t, d)]
  | (t', d') :: rest, t, d =>
    if t' = t then (t', d) :: rest else (t', d') :: setKey rest t d

/-- `t in doc_map`. -/
def hasKey (m : List (String × Doc)) (t : String) : Bool :=
  m.any fun p => p.1 = t

/-- `doc_map[t]` as an option. -/
def lookupKey : List (String × Doc) → String → Option Doc
  | [], _ => none
  | (t', d) :: rest, t => if t' = t then some d else lookupKey rest t

/-- `scores[t]` as an option. -/
def lookupScore : List (String × ℚ) → String → Option ℚ
  | [], _ => none
  | (t', v) :: rest, t => if t' = t then some v else lookupScore rest t

/-- One weighted pass `for rank, doc in enumerate(results, rank₀):
rrf_scores[doc["text"]] += w * (1 / (k + rank))`. -/
def addList (w k : ℚ) : List Doc → Nat → List (String × ℚ) → List (String × ℚ)
  | [], _, acc => acc
  | d :: ds, rank, acc => addList w k ds (rank + 1) (bump acc d.text (w * (1 / (k + (rank : ℚ)))))

/-- The `rrf_scores` map after both weighted passes (BM25 first, then
semantic), with ranks starting at 1. -/
def fusedScores (bm sem : List Doc) (k : ℚ) : List (String × ℚ) :=
  addList W_SEM k sem 1 (addList W_BM25 k bm 1 [])

/-- The `doc_map` loop over the BM25 results: unconditional assignment. -/
def dmapBM : List Doc → List (String × Doc) → List (String × Doc)
  | [], m => m
  | d :: ds, m => dmapBM ds (setKey m d.text d)

/-- The `doc_map` loop over the semantic results: assign only if the text
was not seen before. -/
def dmapSem : List Doc → List (String × Doc) → List (String × Doc)
  | [], m => m
  | d :: ds, m => dmapSem ds (if hasKey m d.text then m else setKey m d.text d)

/-- The `doc_map` after both loops. -/
def docMap (bm sem : List Doc) : List (String × Doc) :=
  dmapSem sem (dmapBM bm [])

/-- The comparison used by `sorted(rrf_scores.items(), key=lambda x: x[1],
reverse=True)`: descending by fused score. `sorted` is stable, which
`List.mergeSort` models exactly. -/
def rrfLe (a b : String × ℚ) : Bool := b.2 ≤ a.2

/-- `HybridRetriever.reciprocal_rank_fusion` (lines 81-129): fuse the two
candidate lists into `(document, hybrid_score)` pairs sorted by fused score
descending. -/
def reciprocal_rank_fusion (bm sem : List Doc) (k : ℚ) : List (Doc × ℚ) :=
  ((fusedScores bm sem k).mergeSort rrfLe).filterMap fun p =>
    match lookupKey (docMap bm sem) p.1 with
    | some d => some (d, p.2)
    | none => none

/-- A built BM25 index for one subject: the corpus documents and the
external `BM25Okapi.get_scores` function on the (tokenized) query. -/
structure BMIndex where
  corpus : List Doc
  getScores : String → List ℚ

/-- The retriever state: per-subject optional BM25 index plus the external
semantic-search collaborator `vector_store.semantic_search(query, subject,
top_k)`. -/
structure HybridRetriever where
  bm25Indices : String → Option BMIndex
  semanticSearch : String → String → Nat → List Doc

/-- The ascending comparison on indices used by `np.argsort(scores)`. -/
def idxLe (scores : List ℚ) (i j : Nat) : Bool :=
  scores.getD i 0 ≤ scores.getD j 0

/-- `np.argsort(scores)[::-1][:top_k]` — indices sorted ascending by score,
reversed, truncated. -/
def topIndices (scores : List ℚ) (top_k : Nat) : List Nat :=
  (((List.range scores.length).mergeSort (idxLe scores)).reverse).take top_k

/-- `HybridRetriever.bm25_search` (lines 46-79): empty list when no index
was built for the subject; otherwise the top-k indices by score, keeping
only strictly positive scores, each document copied with its `bm25_score`. -/
def bm25_search (r : HybridRetriever) (query subject : String) (top_k : Nat) : List Doc :=
  match r.bm25Indices subject with
  | none => []
  | some ix =>
    let scores := ix.getScores query
    (topIndices scores top_k).filterMap fun i =>
      if 0 < scores.getD i 0 then
        (ix.corpus.get? i).map fun d => { d with bm25_score := some (scores.getD i 0) }
      else none

/-- `HybridRetriever.search` (lines 131-166): fuse the two candidate lists
retrieved with `retrieve_k = top_k * 2` and return the top-k fused results.
The RRF constant keeps its default 60. -/
def search (r : HybridRetriever) (query subject : String) (top_k : Nat) : List (Doc × ℚ) :=
  let retrieve_k := top_k * 2
  let bm := bm25_search r query subject retrieve_k
  let sem := r.semanticSearch query subject retrieve_k
  (reciprocal_rank_fusion bm sem 60).take top_k

/-! ## Rank bookkeeping (for stating the RRF formula) -/

/-- The 1-based rank of the first document with text `t`, starting the count
at `r` (mirroring `enumerate(results, r)`). -/
def rankFrom (t : String) : List Doc → Nat → Option Nat
  | [], _ => none
  | d :: ds, r => if d.text = t then some r else rankFrom t ds (r + 1)

/-- The 1-based rank of the document with text `t` in a candidate list
(`none` when absent). -/
def rank1 (l : List Doc) (t : String) : Option Nat := rankFrom t l 1

/-- One list's contribution factor to the RRF formula: `1/(k + rank)` for a
present document, `0` for an absent one. -/
def rrfTerm (k : ℚ) : Option Nat → ℚ
  | none => 0
  | some r => 1 / (k + (r : ℚ))

/-- Closed form of one weighted RRF pass over a list of fresh keys: each
document contributes `(text, w · 1/(k + rank))` in order. -/
def rankWeights (w k : ℚ) : List Doc → Nat → List (String × ℚ)
  | [], _ => []
  | d :: ds, r => (d.text, w * (1 / (k + (r : ℚ)))) :: rankWeights w k ds (r + 1)

/-! ## Concrete sample data (used by witness theorems) -/

def docA : Doc := ⟨"A", 0, none⟩
def docB : Doc := ⟨"B", 1, none⟩
def docB2 : Doc := ⟨"B", 9, none⟩
def docC : Doc := ⟨"C", 2, none⟩

def sampleIndex : BMIndex := ⟨[docA, docB, docC], fun _ => [1, 3, 2]⟩

def sampleRetriever : HybridRetriever :=
  ⟨fun _ => some sampleIndex, fun _ _ _ => [docB2, docC]⟩

def noIndexRetriever : HybridRetriever :=
  ⟨fun _ => none, fun _ _ _ => [docB2, docC]⟩

/-! ## Helper lemmas -/

theorem pyStripList_length_le (cs : List Char) : (pyStripList cs).length ≤ cs.length := by
  unfold pyStripList
  have h1 : (cs.dropWhile pyIsSpace).length ≤ cs.length :=
    (List.dropWhile_sublist pyIsSpace).length_le
  have h2 : (((cs.dropWhile pyIsSpace).reverse.dropWhile pyIsSpace)).length ≤
      (cs.dropWhile pyIsSpace).reverse.length :=
    (List.dropWhile_sublist pyIsSpace).length_le
  simp only [List.length_reverse] at h2 ⊢
  omega

theorem pyStrip_length_le (s : String) : (pyStrip s).length ≤ s.length := by
  show (pyStripList s.data).length ≤ s.data.length
  exact pyStripList_length_le s.data

/-! ## Claim C5 -/

/-- C5: every chunk record emitted by the chunking pipeline has text of
length at least the minimum of 50 characters (indeed its stripped length is
already at least 50); chunks below the minimum are discarded by the
enumeration loop and never appear in the produced chunk list. -/
theorem emitted_chunk_min_length (chunks : List String) (fn src subj : String) :
    ∀ c ∈ process_element_chunks chunks fn src subj,
      50 ≤ (pyStrip c.text).length ∧ 50 ≤ c.text.length := by
  intro c hc
  unfold process_element_chunks at hc
  rw [List.mem_filterMap] at hc
  obtain ⟨p, _, hf⟩ := hc
  by_cases h : (pyStrip p.2).length < 50
  · simp [h] at hf
  · simp only [h, if_false, Option.some_inj] at hf
    have htext : c.text = p.2 := by rw [← hf]
    rw [htext]
    refine ⟨by omega, le_trans (by omega) (pyStrip_length_le p.2)⟩

/-- Witness for C5 at a concrete chunk list: the 60-character chunk is
emitted and satisfies both length bounds. -/
theorem emitted_chunk_min_length_witness :
    (⟨String.mk (List.replicate 60 'x'), ⟨"math", "f.pdf", "data/f.pdf", 1⟩⟩ : Chunk) ∈
        process_element_chunks ["ab", String.mk (List.replicate 60 'x')] "f.pdf" "data/f.pdf" "math" ∧
      50 ≤ (pyStrip (String.mk (List.replicate 60 'x'))).length ∧
      50 ≤ (String.mk (List.replicate 60 'x')).length := by
  have hm : (⟨String.mk (List.replicate 60 'x'), ⟨"math", "f.pdf", "data/f.pdf", 1⟩⟩ : Chunk) ∈
      process_element_chunks ["ab", String.mk (List.replicate 60 'x')] "f.pdf" "data/f.pdf" "math" := by
    decide
  exact ⟨hm, emitted_chunk_min_length _ "f.pdf" "data/f.pdf" "math" _ hm⟩

/-! ## Claim C3 -/

/-- C3 counterexample: with a splitter output whose first chunk is shorter
than the minimum, the emitted `chunk_id` values are `[1]`, not the gap-free
zero-based sequence `[0]` the claim requires. -/
theorem chunk_id_zero_based_cex :
    ((process_element_chunks ["ab", String.mk (List.replicate 60 'x')] "f.pdf" "data/f.pdf" "math").map
        fun c => c.metadata.chunk_id) = [1] ∧
      ([1] : List Nat) ≠
        List.range ((process_element_chunks ["ab", String.mk (List.replicate 60 'x')]
          "f.pdf" "data/f.pdf" "math").length) := by
  exact ⟨by decide, by decide⟩

/-- C3 amended: `chunk_id` values are the zero-based positions of the
retained chunks in the splitter's chunk sequence — strictly increasing in
chunking order, and each one indexes its own text in that sequence — but
the sequence may skip values where a sub-minimum chunk was discarded. -/
theorem chunk_id_strictly_increasing (chunks : List String) (fn src subj : String) :
    List.Pairwise (· < ·)
      ((process_element_chunks chunks fn src subj).map fun c => c.metadata.chunk_id)
    ∧ ∀ c ∈ process_element_chunks chunks fn src subj,
        chunks.get? c.metadata.chunk_id = some c.text := by
  constructor
  · have henum : List.Pairwise (fun p q : ℕ × String => p.1 < q.1) chunks.enum := by
      rw [List.pairwise_iff_getElem]
      intro i j hi hj hij
      simp only [List.getElem_enum]
      exact hij
    rw [List.pairwise_map]
    unfold process_element_chunks
    rw [List.pairwise_filterMap]
    refine henum.imp ?_
    intro p q hpq b hb b' hb'
    by_cases h : (pyStrip p.2).length < 50
    · simp [h] at hb
    · by_cases h' : (pyStrip q.2).length < 50
      · simp [h'] at hb'
      · simp only [h, h', if_false, Option.mem_def, Option.some_inj] at hb hb'
        rw [← hb, ← hb']
        exact hpq
  · intro c hc
    unfold process_element_chunks at hc
    rw [List.mem_filterMap] at hc
    obtain ⟨p, hp, hf⟩ := hc
    by_cases h : (pyStrip p.2).length < 50
    · simp [h] at hf
    · simp only [h, if_false, Option.some_inj] at hf
      rw [List.mem_enum_iff_get?] at hp
      rw [← hf]
      exact hp

/-- Witness for C3 (amended) at a concrete chunk list. -/
theorem chunk_id_strictly_increasing_witness :
    (⟨String.mk (List.replicate 60 'x'), ⟨"math", "f.pdf", "data/f.pdf", 1⟩⟩ : Chunk) ∈
        process_element_chunks ["ab", String.mk (List.replicate 60 'x')] "f.pdf" "data/f.pdf" "math" ∧
      ["ab", String.mk (List.replicate 60 'x')].get? 1 = some (String.mk (List.replicate 60 'x')) := by
  have hm : (⟨String.mk (List.replicate 60 'x'), ⟨"math", "f.pdf", "data/f.pdf", 1⟩⟩ : Chunk) ∈
      process_element_chunks ["ab", String.mk (List.replicate 60 'x')] "f.pdf" "data/f.pdf" "math" := by
    decide
  exact ⟨hm, (chunk_id_strictly_increasing ["ab", String.mk (List.replicate 60 'x')]
    "f.pdf" "data/f.pdf" "math").2 _ hm⟩

/-! ## Claim C8 -/

/-- C8: every subject cleaning variant's `clean` is a total function — it
returns a string on every input, including the empty string (on which every
variant returns the empty string); no exception path exists in the
embedding. -/
theorem clean_never_raises (c : CleanerKind) (s : String) :
    (∃ out : String, clean c s = out) ∧ clean c "" = "" := by
  refine ⟨⟨clean c s, rfl⟩, ?_⟩
  cases c <;> decide

/-! ## Claim C9 -/

theorem splitCh_cons_ne (sep c : Char) (cs : List Char) (h : c ≠ sep) :
    splitCh sep (c :: cs) =
      match splitCh sep cs with
      | p :: ps => (c :: p) :: ps
      | [] => [[c]] := by
  rw [show splitCh sep (c :: cs) =
    (if c = sep then [] :: splitCh sep cs else
      match splitCh sep cs with
      | p :: ps => (c :: p) :: ps
      | [] => [[c]]) from rfl]
  rw [if_neg h]

theorem splitCh_ne_nil (sep : Char) (cs : List Char) : splitCh sep cs ≠ [] := by
  cases cs with
  | nil => simp [splitCh]
  | cons c cs =>
    by_cases h : c = sep
    · subst h
      rw [show splitCh c (c :: cs) = [] :: splitCh c cs by simp [splitCh]]
      simp
    · rw [splitCh_cons_ne sep c cs h]
      cases splitCh sep cs <;> simp

theorem splitCh_pieces_sep_free (sep : Char) (cs : List Char) :
    ∀ q ∈ splitCh sep cs, sep ∉ q := by
  induction cs with
  | nil => intro q hq; simp [splitCh] at hq; simp [hq]
  | cons c cs ih =>
    intro q hq
    by_cases h : c = sep
    · subst h
      rw [show splitCh c (c :: cs) = [] :: splitCh c cs by simp [splitCh]] at hq
      rcases List.mem_cons.1 hq with hq | hq
      · simp [hq]
      · exact ih q hq
    · rw [splitCh_cons_ne sep c cs h] at hq
      cases hsp : splitCh sep cs with
      | nil => exact absurd hsp (splitCh_ne_nil sep cs)
      | cons p ps =>
        rw [hsp] at hq
        have hq' : q ∈ (c :: p) :: ps := hq
        rcases List.mem_cons.1 hq' with hq'' | hq''
        · subst hq''
          intro hmem
          rcases List.mem_cons.1 hmem with h' | h'
          · exact h h'.symm
          · exact ih p (by rw [hsp]; exact List.mem_cons_self p ps) h'
        · exact ih q (by rw [hsp]; exact List.mem_cons_of_mem p hq'')

theorem splitCh_of_sep_free (sep : Char) (p : List Char) (h : sep ∉ p) :
    splitCh sep p = [p] := by
  induction p with
  | nil => simp [splitCh]
  | cons c p ih =>
    have hc : c ≠ sep := fun hcs => h (hcs ▸ List.mem_cons_self c p)
    have hp : sep ∉ p := fun hmem => h (List.mem_cons_of_mem c hmem)
    rw [splitCh_cons_ne sep c p hc, ih hp]

theorem splitCh_append_sep (sep : Char) (p rest : List Char) (h : sep ∉ p) :
    splitCh sep (p ++ sep :: rest) = p :: splitCh sep rest := by
  induction p with
  | nil =>
    rw [List.nil_append]
    rw [show splitCh sep (sep :: rest) = [] :: splitCh sep rest by simp [splitCh]]
  | cons c p ih =>
    have hc : c ≠ sep := fun hcs => h (hcs ▸ List.mem_cons_self c p)
    have hp : sep ∉ p := fun hmem => h (List.mem_cons_of_mem c hmem)
    rw [List.cons_append, splitCh_cons_ne sep c _ hc, ih hp]

theorem splitCh_joinCh (sep : Char) (ps : List (List Char)) (hne : ps ≠ [])
    (hfree : ∀ p ∈ ps, sep ∉ p) :
    splitCh sep (joinCh sep ps) = ps := by
  induction ps with
  | nil => exact absurd rfl hne
  | cons p ps ih =>
    cases ps with
    | nil =>
      show splitCh sep (joinSep [sep] [p]) = [p]
      rw [show joinSep [sep] [p] = p from rfl]
      exact splitCh_of_sep_free sep p (hfree p (by simp))
    | cons q qs =>
      show splitCh sep (p ++ [sep] ++ joinSep [sep] (q :: qs)) = p :: q :: qs
      rw [List.append_assoc, List.singleton_append]
      rw [splitCh_append_sep sep p _ (hfree p (by simp))]
      rw [show (joinSep [sep] (q :: qs) : List Char) = joinCh sep (q :: qs) from rfl]
      rw [ih (by simp) (fun r hr => hfree r (List.mem_cons_of_mem p hr))]

/-- Rejoining and re-filtering the kept lines is the identity (the keep
predicate depends only on the line itself, and kept lines are
newline-free). -/
theorem rejoin_filtered (ks : List (List Char)) (hfree : ∀ p ∈ ks, '\n' ∉ p)
    (hkeep : ∀ l ∈ ks, keepLine l = true) :
    joinCh '\n' ((splitCh '\n' (joinCh '\n' ks)).filter keepLine) = joinCh '\n' ks := by
  cases ks with
  | nil => decide
  | cons k ks' =>
    rw [splitCh_joinCh '\n' (k :: ks') (by simp) hfree]
    rw [List.filter_eq_self.2 hkeep]

/-- C9 amended: the shared baseline pass `basic_clean` is idempotent —
rerunning it on its own output changes nothing, because every surviving
line still satisfies the keep condition and line structure is preserved. -/
theorem basic_clean_idempotent (s : String) :
    basic_clean (basic_clean s) = basic_clean s := by
  show String.mk (basicCleanL (basicCleanL s.data)) = String.mk (basicCleanL s.data)
  congr 1
  unfold basicCleanL
  exact rejoin_filtered _
    (fun p hp => splitCh_pieces_sep_free '\n' s.data p (List.mem_of_mem_filter hp))
    (fun l hl => List.of_mem_filter hl)

/-- C9 counterexample: the Math/Physics variant is not idempotent — the
figure-caption substitution leaves an empty line behind, which only the
second application's baseline pass removes. -/
theorem clean_not_idempotent_cex :
    clean .mathPhysics (clean .mathPhysics "Fig. 1 x\nabc def.") ≠
      clean .mathPhysics "Fig. 1 x\nabc def." := by decide

/-! ## Claim C7 -/

/-- C7 counterexample: `"الفصل العاشر"` (the *tenth* chapter, with the
ordinal word `العاشر`) is not matched by any structural-separator pattern —
the source's alternation stops at `التاسع` and then has the bare `عشر`,
which is not a prefix of `العاشر` — so mid-accumulation the line is merged
into the running paragraph instead of being isolated. -/
theorem header_tenth_ordinal_cex :
    is_header "الفصل العاشر من الكتاب" = false ∧
      reconstruct_paragraphs "قال الطالب كلاما\nالفصل العاشر من الكتاب" =
        "قال الطالب كلاما الفصل العاشر من الكتاب" := by
  exact ⟨by decide, by decide⟩

/-- C7 amended: a line whose stripped form matches a structural header
pattern — English chapter/unit/lesson/lecture/section markers, Arabic
markers with the ordinal words `الأول` through `التاسع` or the word `عشر`
or raw numerals, or a numbered prefix `N - ` — always flushes the pending
paragraph buffer, is emitted on its own surrounded by forced blank-line
padding, and restarts the buffer empty, even mid-accumulation. -/
theorem header_line_flushes (recon para : List (List Char)) (rawLine : List Char)
    (hne : (pyStripList rawLine).isEmpty = false)
    (hhd : isHeaderL (pyStripList rawLine) = true) :
    reconStep (recon, para) rawLine =
      ((if !para.isEmpty then recon ++ [joinCh ' ' para] else recon) ++
        ['\n' :: '\n' :: (pyStripList rawLine ++ ['\n', '\n'])], []) := by
  unfold reconStep
  simp only [hne, hhd, Bool.false_eq_true, if_false, if_true]

/-- Witness for C7 (amended): the line `"الفصل الأول"` arriving while a
paragraph is accumulating flushes it and is emitted as an isolated padded
header. -/
theorem header_line_flushes_witness :
    ((pyStripList "الفصل الأول".data).isEmpty = false ∧
        isHeaderL (pyStripList "الفصل الأول".data) = true) ∧
      reconStep ([], ["نص سابق".data]) "الفصل الأول".data =
        (([] ++ [joinCh ' ' ["نص سابق".data]]) ++
          ['\n' :: '\n' :: (pyStripList "الفصل الأول".data ++ ['\n', '\n'])], []) := by
  refine ⟨⟨by decide, by decide⟩, ?_⟩
  have h := header_line_flushes [] ["نص سابق".data] "الفصل الأول".data (by decide) (by decide)
  simpa using h

/-! ## Claim C2 -/

theorem topIndices_sorted (scores : List ℚ) (top_k : Nat) :
    List.Pairwise (fun i j : Nat => scores.getD j 0 ≤ scores.getD i 0)
      (topIndices scores top_k) := by
  unfold topIndices
  apply List.Pairwise.sublist (List.take_sublist _ _)
  rw [List.pairwise_reverse]
  have htrans : ∀ a b c : Nat, idxLe scores a b → idxLe scores b c → idxLe scores a c := by
    intro a b c hab hbc
    unfold idxLe at *
    simp only [decide_eq_true_eq] at hab hbc ⊢
    exact le_trans hab hbc
  have htotal : ∀ a b : Nat, idxLe scores a b || idxLe scores b a := by
    intro a b
    unfold idxLe
    simp only [Bool.or_eq_true, decide_eq_true_eq]
    exact le_total _ _
  have hs := List.sorted_mergeSort htrans htotal (List.range scores.length)
  refine hs.imp ?_
  intro a b h
  unfold idxLe at h
  exact of_decide_eq_true h

/-- C2: on a built subject index, `bm25_search` returns at most `top_k`
candidates, every returned candidate carries a strictly positive BM25 score,
and the returned list is ordered by BM25 score descending. -/
theorem bm25_search_spec (r : HybridRetriever) (query subject : String) (top_k : Nat)
    (ix : BMIndex) (hix : r.bm25Indices subject = some ix) :
    (bm25_search r query subject top_k).length ≤ top_k
    ∧ (∀ d ∈ bm25_search r query subject top_k, ∃ s : ℚ, d.bm25_score = some s ∧ 0 < s)
    ∧ List.Pairwise (fun a b : Doc => b.bm25_score.getD 0 ≤ a.bm25_score.getD 0)
        (bm25_search r query subject top_k) := by
  unfold bm25_search
  rw [hix]
  refine ⟨?_, ?_, ?_⟩
  · calc (((topIndices (ix.getScores query) top_k)).filterMap _).length
        ≤ (topIndices (ix.getScores query) top_k).length := List.length_filterMap_le _ _
      _ ≤ top_k := by
          unfold topIndices
          exact (List.length_take_le _ _)
  · intro d hd
    rw [List.mem_filterMap] at hd
    obtain ⟨i, _, hf⟩ := hd
    by_cases h : 0 < (ix.getScores query).getD i 0
    · simp only [h, if_true, Option.map_eq_some'] at hf
      obtain ⟨d₀, _, hd₀⟩ := hf
      refine ⟨(ix.getScores query).getD i 0, ?_, h⟩
      rw [← hd₀]
    · rw [if_neg h] at hf
      simp at hf
  · apply List.Pairwise.filterMap _ ?_ (topIndices_sorted (ix.getScores query) top_k)
    intro i j hij b hb b' hb'
    by_cases hi : 0 < (ix.getScores query).getD i 0
    · by_cases hj : 0 < (ix.getScores query).getD j 0
      · simp only [hi, hj, if_true, Option.mem_def, Option.map_eq_some'] at hb hb'
        obtain ⟨d₀, _, hd₀⟩ := hb
        obtain ⟨d₁, _, hd₁⟩ := hb'
        rw [← hd₀, ← hd₁]
        simpa using hij
      · rw [if_neg hj] at hb'
        simp at hb'
    · rw [if_neg hi] at hb
      simp at hb

/-- Witness for C2 on a concrete three-document index with scores
`[1, 3, 2]`. -/
theorem bm25_search_spec_witness :
    sampleRetriever.bm25Indices "math" = some sampleIndex ∧
    ((bm25_search sampleRetriever "q" "math" 2).length ≤ 2
      ∧ (∀ d ∈ bm25_search sampleRetriever "q" "math" 2,
          ∃ s : ℚ, d.bm25_score = some s ∧ 0 < s)
      ∧ List.Pairwise (fun a b : Doc => b.bm25_score.getD 0 ≤ a.bm25_score.getD 0)
          (bm25_search sampleRetriever "q" "math" 2)) :=
  ⟨rfl, bm25_search_spec sampleRetriever "q" "math" 2 sampleIndex rfl⟩

/-! ## Association-list lemmas for the RRF score and document maps -/

theorem lookupScore_isSome_of_mem_keys {m : List (String × ℚ)} {t : String}
    (h : t ∈ m.map Prod.fst) : ∃ v, lookupScore m t = some v := by
  induction m with
  | nil => simp at h
  | cons p m ih =>
    by_cases hp : p.1 = t
    · exact ⟨p.2, by simp [lookupScore, hp]⟩
    · simp only [List.map_cons, List.mem_cons] at h
      rcases h with h | h
      · exact absurd h.symm hp
      · obtain ⟨v, hv⟩ := ih h
        exact ⟨v, by simp [lookupScore, hp, hv]⟩

theorem lookupScore_eq_of_mem {m : List (String × ℚ)} {t : String} {v : ℚ}
    (hnd : (m.map Prod.fst).Nodup) (h : (t, v) ∈ m) : lookupScore m t = some v := by
  induction m with
  | nil => simp at h
  | cons p m ih =>
    rcases List.mem_cons.1 h with h | h
    · subst h
      simp [lookupScore]
    · have hp : p.1 ≠ t := by
        intro hpt
        have : t ∈ m.map Prod.fst := List.mem_map.2 ⟨(t, v), h, rfl⟩
        rw [List.map_cons, List.nodup_cons, hpt] at hnd
        exact hnd.1 this
      simp only [lookupScore, hp, if_false]
      exact ih (by rw [List.map_cons, List.nodup_cons] at hnd; exact hnd.2) h

theorem lookupKey_eq_of_mem {m : List (String × Doc)} {t : String} {d : Doc}
    (hnd : (m.map Prod.fst).Nodup) (h : (t, d) ∈ m) : lookupKey m t = some d := by
  induction m with
  | nil => simp at h
  | cons p m ih =>
    rcases List.mem_cons.1 h with h | h
    · subst h
      simp [lookupKey]
    · have hp : p.1 ≠ t := by
        intro hpt
        have : t ∈ m.map Prod.fst := List.mem_map.2 ⟨(t, d), h, rfl⟩
        rw [List.map_cons, List.nodup_cons, hpt] at hnd
        exact hnd.1 this
      simp only [lookupKey, hp, if_false]
      exact ih (by rw [List.map_cons, List.nodup_cons] at hnd; exact hnd.2) h

theorem lookupKey_mem {m : List (String × Doc)} {t : String} {d : Doc}
    (h : lookupKey m t = some d) : (t, d) ∈ m := by
  induction m with
  | nil => simp [lookupKey] at h
  | cons p m ih =>
    by_cases hp : p.1 = t
    · simp only [lookupKey, hp, if_true, Option.some_inj] at h
      exact List.mem_cons.2 (Or.inl (by rw [← h, ← hp]))
    · simp only [lookupKey, hp, if_false] at h
      exact List.mem_cons.2 (Or.inr (ih h))

theorem lookupKey_isSome_of_mem_keys {m : List (String × Doc)} {t : String}
    (h : t ∈ m.map Prod.fst) : ∃ d, lookupKey m t = some d := by
  induction m with
  | nil => simp at h
  | cons p m ih =>
    by_cases hp : p.1 = t
    · exact ⟨p.2, by simp [lookupKey, hp]⟩
    · simp only [List.map_cons, List.mem_cons] at h
      rcases h with h | h
      · exact absurd h.symm hp
      · obtain ⟨d, hd⟩ := ih h
        exact ⟨d, by simp [lookupKey, hp, hd]⟩

theorem hasKey_iff {m : List (String × Doc)} {t : String} :
    hasKey m t = true ↔ t ∈ m.map Prod.fst := by
  unfold hasKey
  rw [List.any_eq_true]
  constructor
  · rintro ⟨p, hp, he⟩
    exact List.mem_map.2 ⟨p, hp, of_decide_eq_true he⟩
  · intro hm
    obtain ⟨p, hp, he⟩ := List.mem_map.1 hm
    exact ⟨p, hp, decide_eq_true he⟩

/-! bump -/

theorem bump_of_not_mem {acc : List (String × ℚ)} {t : String} (v : ℚ)
    (h : t ∉ acc.map Prod.fst) : bump acc t v = acc ++ [(t, v)] := by
  induction acc with
  | nil => rfl
  | cons p acc ih =>
    have hp : p.1 ≠ t := by
      intro hpt
      exact h (by simp [hpt])
    simp only [bump, hp, if_false, List.cons_append]
    rw [ih (fun hm => h (by simp [hm]))]

theorem keys_bump (acc : List (String × ℚ)) (t : String) (v : ℚ) :
    (bump acc t v).map Prod.fst =
      if t ∈ acc.map Prod.fst then acc.map Prod.fst else acc.map Prod.fst ++ [t] := by
  induction acc with
  | nil => simp [bump]
  | cons p acc ih =>
    by_cases hp : p.1 = t
    · simp [bump, hp]
    · simp only [bump, hp, if_false, List.map_cons, ih]
      by_cases hm : t ∈ acc.map Prod.fst
      · simp [hm, hp, Ne.symm hp]
      · simp [hm, hp, Ne.symm hp]

theorem lookupScore_bump_self (acc : List (String × ℚ)) (t : String) (v : ℚ) :
    lookupScore (bump acc t v) t = some ((lookupScore acc t).getD 0 + v) := by
  induction acc with
  | nil => simp [bump, lookupScore, lookupScore]
  | cons p acc ih =>
    by_cases hp : p.1 = t
    · simp [bump, lookupScore, hp]
    · simp [bump, lookupScore, hp, ih]

theorem lookupScore_bump_other (acc : List (String × ℚ)) {t u : String} (v : ℚ)
    (h : u ≠ t) : lookupScore (bump acc t v) u = lookupScore acc u := by
  induction acc with
  | nil => simp [bump, lookupScore, Ne.symm h]
  | cons p acc ih =>
    by_cases hp : p.1 = t
    · simp [bump, lookupScore, hp, Ne.symm h]
    · by_cases hu : p.1 = u
      · simp [bump, lookupScore, hp, hu, h]
      · simp [bump, lookupScore, hp, hu, ih, h]

theorem keys_bump_nodup {acc : List (String × ℚ)} (t : String) (v : ℚ)
    (h : (acc.map Prod.fst).Nodup) : ((bump acc t v).map Prod.fst).Nodup := by
  rw [keys_bump]
  by_cases hm : t ∈ acc.map Prod.fst
  · simpa [hm] using h
  · simp only [hm, if_false]
    rw [List.nodup_append]
    exact ⟨h, List.nodup_singleton t, by simpa using hm⟩

theorem bump_pos {acc : List (String × ℚ)} {t : String} {v : ℚ}
    (hacc : ∀ p ∈ acc, 0 < p.2) (hv : 0 < v) : ∀ p ∈ bump acc t v, 0 < p.2 := by
  induction acc with
  | nil =>
    intro p hp
    simp only [bump, List.mem_singleton] at hp
    simpa [hp] using hv
  | cons q acc ih =>
    intro p hp
    by_cases hq : q.1 = t
    · simp only [bump, hq, if_true] at hp
      rcases List.mem_cons.1 hp with h | h
      · have h0 : 0 < q.2 := hacc q (List.mem_cons_self _ _)
        simp [h]
        positivity
      · exact hacc p (List.mem_cons_of_mem q h)
    · simp only [bump, hq, if_false] at hp
      rcases List.mem_cons.1 hp with h | h
      · exact h ▸ hacc q (List.mem_cons_self _ _)
      · exact ih (fun r hr => hacc r (List.mem_cons_of_mem q hr)) p h

/-! setKey -/

theorem setKey_of_not_mem {m : List (String × Doc)} {t : String} (d : Doc)
    (h : t ∉ m.map Prod.fst) : setKey m t d = m ++ [(t, d)] := by
  induction m with
  | nil => rfl
  | cons p m ih =>
    have hp : p.1 ≠ t := fun hpt => h (by simp [hpt])
    simp only [setKey, hp, if_false, List.cons_append]
    rw [ih (fun hm => h (by simp [hm]))]

theorem setKey_mem_cases {m : List (String × Doc)} {t : String} {d : Doc} :
    ∀ p ∈ setKey m t d, p ∈ m ∨ p = (t, d) := by
  induction m with
  | nil =>
    intro p hp
    simp only [setKey, List.mem_singleton] at hp
    exact Or.inr hp
  | cons q m ih =>
    intro p hp
    by_cases hq : q.1 = t
    · simp only [setKey, hq, if_true] at hp
      rcases List.mem_cons.1 hp with h | h
      · exact Or.inr h
      · exact Or.inl (List.mem_cons_of_mem q h)
    · simp only [setKey, hq, if_false] at hp
      rcases List.mem_cons.1 hp with h | h
      · exact Or.inl (h ▸ List.mem_cons_self q m)
      · rcases ih p h with h' | h'
        · exact Or.inl (List.mem_cons_of_mem q h')
        · exact Or.inr h'

theorem keys_setKey_superset {m : List (String × Doc)} {t : String} (d : Doc) :
    ∀ u ∈ m.map Prod.fst, u ∈ (setKey m t d).map Prod.fst := by
  induction m with
  | nil => simp
  | cons q m ih =>
    intro u hu
    by_cases hq : q.1 = t
    · simpa [setKey, hq] using hu
    · simp only [List.map_cons, List.mem_cons] at hu
      rcases hu with hu | hu
      · simp [setKey, hq, hu]
      · simp only [setKey, hq, if_false, List.map_cons, List.mem_cons]
        exact Or.inr (ih u hu)

theorem mem_keys_setKey {m : List (String × Doc)} (t : String) (d : Doc) :
    t ∈ (setKey m t d).map Prod.fst := by
  induction m with
  | nil => simp [setKey]
  | cons q m ih =>
    by_cases hq : q.1 = t
    · simp [setKey, hq]
    · simp only [setKey, hq, if_false, List.map_cons, List.mem_cons]
      exact Or.inr ih

/-! addList -/

theorem mem_keys_bump_of_mem {acc : List (String × ℚ)} {t u : String} (v : ℚ)
    (h : u ∈ acc.map Prod.fst) : u ∈ (bump acc t v).map Prod.fst := by
  rw [keys_bump]
  by_cases hm : t ∈ acc.map Prod.fst
  · simpa [hm] using h
  · simp [hm, h]

theorem mem_keys_bump_self (acc : List (String × ℚ)) (t : String) (v : ℚ) :
    t ∈ (bump acc t v).map Prod.fst := by
  rw [keys_bump]
  by_cases hm : t ∈ acc.map Prod.fst
  · simpa [hm] using hm
  · simp [hm]

theorem addList_acc_mem_keys {w k : ℚ} (ds : List Doc) (r : Nat)
    (acc : List (String × ℚ)) {u : String} (h : u ∈ acc.map Prod.fst) :
    u ∈ (addList w k ds r acc).map Prod.fst := by
  induction ds generalizing r acc with
  | nil => exact h
  | cons d ds ih => exact ih (r + 1) _ (mem_keys_bump_of_mem _ h)

theorem addList_text_mem_keys {w k : ℚ} (ds : List Doc) (r : Nat)
    (acc : List (String × ℚ)) {d : Doc} (h : d ∈ ds) :
    d.text ∈ (addList w k ds r acc).map Prod.fst := by
  induction ds generalizing r acc with
  | nil => simp at h
  | cons d' ds ih =>
    rcases List.mem_cons.1 h with h | h
    · subst h
      exact addList_acc_mem_keys ds (r + 1) _ (mem_keys_bump_self acc d.text _)
    · exact ih (r + 1) _ h

theorem addList_keys_cases {w k : ℚ} (ds : List Doc) (r : Nat)
    (acc : List (String × ℚ)) :
    ∀ t ∈ (addList w k ds r acc).map Prod.fst,
      t ∈ acc.map Prod.fst ∨ t ∈ ds.map (fun d => d.text) := by
  induction ds generalizing r acc with
  | nil => exact fun t ht => Or.inl ht
  | cons d ds ih =>
    intro t ht
    rcases ih (r + 1) _ t ht with h | h
    · rw [keys_bump] at h
      by_cases hm : d.text ∈ acc.map Prod.fst
      · rw [if_pos hm] at h
        exact Or.inl h
      · rw [if_neg hm] at h
        rcases List.mem_append.1 h with h | h
        · exact Or.inl h
        · simp only [List.mem_singleton] at h
          exact Or.inr (by simp [h])
    · exact Or.inr (List.mem_cons_of_mem _ h)

theorem addList_nodup_keys {w k : ℚ} (ds : List Doc) (r : Nat)
    (acc : List (String × ℚ)) (h : (acc.map Prod.fst).Nodup) :
    ((addList w k ds r acc).map Prod.fst).Nodup := by
  induction ds generalizing r acc with
  | nil => exact h
  | cons d ds ih => exact ih (r + 1) _ (keys_bump_nodup _ _ h)

theorem addList_pos (w k : ℚ) (hw : 0 < w) (hk : 0 < k) (ds : List Doc) (r : Nat)
    (acc : List (String × ℚ)) (hacc : ∀ p ∈ acc, 0 < p.2) :
    ∀ p ∈ addList w k ds r acc, 0 < p.2 := by
  induction ds generalizing r acc with
  | nil => exact hacc
  | cons d ds ih =>
    have hv : 0 < w * (1 / (k + (r : ℚ))) := by
      have hr : (0 : ℚ) ≤ (r : ℚ) := Nat.cast_nonneg r
      have : 0 < k + (r : ℚ) := by linarith
      positivity
    exact ih (r + 1) _ (bump_pos hacc hv)

theorem addList_lookup_of_not_mem {w k : ℚ} (ds : List Doc) (r : Nat)
    (acc : List (String × ℚ)) {t : String} (h : t ∉ ds.map (fun d => d.text)) :
    lookupScore (addList w k ds r acc) t = lookupScore acc t := by
  induction ds generalizing r acc with
  | nil => rfl
  | cons d ds ih =>
    have ht : t ≠ d.text := fun he => h (by simp [he])
    rw [show addList w k (d :: ds) r acc =
      addList w k ds (r + 1) (bump acc d.text (w * (1 / (k + (r : ℚ))))) from rfl]
    rw [ih (r + 1) _ (fun hm => h (List.mem_cons_of_mem _ hm))]
    exact lookupScore_bump_other acc _ ht

theorem addList_lookup {w k : ℚ} (ds : List Doc) (r : Nat) (acc : List (String × ℚ))
    (t : String) (hnd : (ds.map (fun d => d.text)).Nodup) :
    lookupScore (addList w k ds r acc) t =
      match rankFrom t ds r with
      | some i => some ((lookupScore acc t).getD 0 + w * (1 / (k + (i : ℚ))))
      | none => lookupScore acc t := by
  induction ds generalizing r acc with
  | nil => rfl
  | cons d ds ih =>
    rw [List.map_cons, List.nodup_cons] at hnd
    by_cases ht : d.text = t
    · rw [show rankFrom t (d :: ds) r = some r by simp [rankFrom, ht]]
      rw [show addList w k (d :: ds) r acc =
        addList w k ds (r + 1) (bump acc d.text (w * (1 / (k + (r : ℚ))))) from rfl]
      have hnotin : t ∉ ds.map (fun d => d.text) := by rw [← ht]; exact hnd.1
      rw [addList_lookup_of_not_mem ds (r + 1) _ hnotin]
      rw [ht]
      exact lookupScore_bump_self acc t _
    · rw [show rankFrom t (d :: ds) r = rankFrom t ds (r + 1) by simp [rankFrom, ht]]
      rw [show addList w k (d :: ds) r acc =
        addList w k ds (r + 1) (bump acc d.text (w * (1 / (k + (r : ℚ))))) from rfl]
      rw [ih (r + 1) _ hnd.2]
      have hne : t ≠ d.text := fun he => ht he.symm
      cases rankFrom t ds (r + 1) with
      | none => exact lookupScore_bump_other acc _ hne
      | some i => rw [lookupScore_bump_other acc _ hne]

/-! Closed form on fresh keys -/

theorem addList_closed {w k : ℚ} (ds : List Doc) (r : Nat) (acc : List (String × ℚ))
    (hnd : (ds.map (fun d => d.text)).Nodup)
    (hfresh : ∀ d ∈ ds, d.text ∉ acc.map Prod.fst) :
    addList w k ds r acc = acc ++ rankWeights w k ds r := by
  induction ds generalizing r acc with
  | nil =>
    rw [show addList w k [] r acc = acc from rfl,
      show rankWeights w k [] r = ([] : List (String × ℚ)) from rfl]
    simp
  | cons d ds ih =>
    rw [List.map_cons, List.nodup_cons] at hnd
    rw [show addList w k (d :: ds) r acc =
      addList w k ds (r + 1) (bump acc d.text (w * (1 / (k + (r : ℚ))))) from rfl]
    rw [bump_of_not_mem _ (hfresh d (List.mem_cons_self d ds))]
    rw [ih (r + 1) _ hnd.2 ?_]
    · rw [show rankWeights w k (d :: ds) r =
        (d.text, w * (1 / (k + (r : ℚ)))) :: rankWeights w k ds (r + 1) from rfl]
      simp
    · intro d' hd'
      rw [List.map_append]
      intro hmem
      rcases List.mem_append.1 hmem with h | h
      · exact hfresh d' (List.mem_cons_of_mem d hd') h
      · simp only [List.map_cons, List.map_nil, List.mem_singleton] at h
        exact hnd.1 (h ▸ List.mem_map.2 ⟨d', hd', rfl⟩)

theorem rankWeights_keys (w k : ℚ) (ds : List Doc) (r : Nat) :
    (rankWeights w k ds r).map Prod.fst = ds.map (fun d => d.text) := by
  induction ds generalizing r with
  | nil => rfl
  | cons d ds ih => simp [rankWeights, ih]

theorem rankWeights_snd {w k : ℚ} {ds : List Doc} {r : Nat} :
    ∀ p ∈ rankWeights w k ds r, ∃ i : Nat, r ≤ i ∧ p.2 = w * (1 / (k + (i : ℚ))) := by
  induction ds generalizing r with
  | nil => simp [rankWeights]
  | cons d ds ih =>
    intro p hp
    rcases List.mem_cons.1 hp with h | h
    · exact ⟨r, le_refl r, by rw [h]⟩
    · obtain ⟨i, hi, he⟩ := ih p h
      exact ⟨i, by omega, he⟩

theorem rankWeights_strict_sorted {w k : ℚ} (hw : 0 < w) (hk : 0 < k)
    (ds : List Doc) (r : Nat) :
    List.Pairwise (fun a b : String × ℚ => b.2 < a.2) (rankWeights w k ds r) := by
  induction ds generalizing r with
  | nil => simp [rankWeights]
  | cons d ds ih =>
    rw [show rankWeights w k (d :: ds) r =
      (d.text, w * (1 / (k + (r : ℚ)))) :: rankWeights w k ds (r + 1) from rfl]
    refine List.Pairwise.cons ?_ (ih (r + 1))
    intro p hp
    obtain ⟨i, hi, he⟩ := rankWeights_snd p hp
    rw [he]
    have hr : (0 : ℚ) ≤ (r : ℚ) := Nat.cast_nonneg r
    have hkr : 0 < k + (r : ℚ) := by linarith
    have hlt : (k + (r : ℚ)) < k + (i : ℚ) := by
      have : ((r : ℚ) + 1) ≤ (i : ℚ) := by exact_mod_cast hi
      linarith
    have : 1 / (k + (i : ℚ)) < 1 / (k + (r : ℚ)) :=
      one_div_lt_one_div_of_lt hkr hlt
    exact mul_lt_mul_of_pos_left this hw

/-! docMap -/

theorem dmapBM_mem (ds : List Doc) (m : List (String × Doc)) :
    ∀ p ∈ dmapBM ds m, p ∈ m ∨ p.2 ∈ ds := by
  induction ds generalizing m with
  | nil => exact fun p hp => Or.inl hp
  | cons d ds ih =>
    intro p hp
    rcases ih (setKey m d.text d) p hp with h | h
    · rcases setKey_mem_cases p h with h' | h'
      · exact Or.inl h'
      · exact Or.inr (by rw [h']; exact List.mem_cons_self d ds)
    · exact Or.inr (List.mem_cons_of_mem d h)

theorem dmapBM_text (ds : List Doc) (m : List (String × Doc))
    (hm : ∀ p ∈ m, p.2.text = p.1) : ∀ p ∈ dmapBM ds m, p.2.text = p.1 := by
  induction ds generalizing m with
  | nil => exact hm
  | cons d ds ih =>
    refine ih (setKey m d.text d) ?_
    intro p hp
    rcases setKey_mem_cases p hp with h | h
    · exact hm p h
    · rw [h]

theorem dmapBM_keys_superset (ds : List Doc) (m : List (String × Doc)) :
    ∀ u ∈ m.map Prod.fst, u ∈ (dmapBM ds m).map Prod.fst := by
  induction ds generalizing m with
  | nil => exact fun u hu => hu
  | cons d ds ih =>
    intro u hu
    exact ih (setKey m d.text d) u (keys_setKey_superset d u hu)

theorem dmapBM_texts_sub (ds : List Doc) (m : List (String × Doc)) :
    ∀ d ∈ ds, d.text ∈ (dmapBM ds m).map Prod.fst := by
  induction ds generalizing m with
  | nil => simp
  | cons d' ds ih =>
    intro d hd
    rcases List.mem_cons.1 hd with h | h
    · subst h
      exact dmapBM_keys_superset ds _ d.text (mem_keys_setKey d.text d)
    · exact ih (setKey m d'.text d') d h

theorem dmapSem_append (ds : List Doc) (m : List (String × Doc)) :
    ∃ ext, dmapSem ds m = m ++ ext ∧
      ∀ p ∈ ext, p.2 ∈ ds ∧ p.1 ∉ m.map Prod.fst ∧ p.2.text = p.1 := by
  induction ds generalizing m with
  | nil => exact ⟨[], by simp [dmapSem], by simp⟩
  | cons d ds ih =>
    by_cases h : hasKey m d.text
    · rw [show dmapSem (d :: ds) m = dmapSem ds (if hasKey m d.text then m
        else setKey m d.text d) from rfl, if_pos h]
      obtain ⟨ext, heq, hcond⟩ := ih m
      refine ⟨ext, heq, fun p hp => ?_⟩
      obtain ⟨h1, h2, h3⟩ := hcond p hp
      exact ⟨List.mem_cons_of_mem d h1, h2, h3⟩
    · rw [show dmapSem (d :: ds) m = dmapSem ds (if hasKey m d.text then m
        else setKey m d.text d) from rfl, if_neg h]
      have hnm : d.text ∉ m.map Prod.fst := fun hm => h (hasKey_iff.2 hm)
      rw [setKey_of_not_mem d hnm] at *
      obtain ⟨ext, heq, hcond⟩ := ih (m ++ [(d.text, d)])
      refine ⟨(d.text, d) :: ext, by rw [heq]; simp, fun p hp => ?_⟩
      rcases List.mem_cons.1 hp with h' | h'
      · rw [h']
        exact ⟨List.mem_cons_self d ds, hnm, rfl⟩
      · obtain ⟨h1, h2, h3⟩ := hcond p h'
        refine ⟨List.mem_cons_of_mem d h1, fun hm => h2 ?_, h3⟩
        rw [List.map_append]
        exact List.mem_append_left _ hm

theorem dmapSem_covers (ds : List Doc) (m : List (String × Doc)) :
    ∀ d ∈ ds, d.text ∈ (dmapSem ds m).map Prod.fst := by
  induction ds generalizing m with
  | nil => simp
  | cons d' ds ih =>
    intro d hd
    rw [show dmapSem (d' :: ds) m = dmapSem ds (if hasKey m d'.text then m
      else setKey m d'.text d') from rfl]
    rcases List.mem_cons.1 hd with h | h
    · subst h
      obtain ⟨ext, heq, -⟩ := dmapSem_append ds (if hasKey m d.text then m
        else setKey m d.text d)
      rw [heq, List.map_append]
      apply List.mem_append_left
      by_cases hk : hasKey m d.text
      · rw [if_pos hk]
        exact hasKey_iff.1 hk
      · rw [if_neg hk]
        exact mem_keys_setKey d.text d
    · exact ih _ d h

theorem docMap_text (bm sem : List Doc) :
    ∀ p ∈ docMap bm sem, p.2.text = p.1 := by
  intro p hp
  unfold docMap at hp
  obtain ⟨ext, heq, hcond⟩ := dmapSem_append sem (dmapBM bm [])
  rw [heq] at hp
  rcases List.mem_append.1 hp with h | h
  · exact dmapBM_text bm [] (by simp) p h
  · exact (hcond p h).2.2

theorem docMap_keys_bm (bm sem : List Doc) :
    ∀ d ∈ bm, d.text ∈ (docMap bm sem).map Prod.fst := by
  intro d hd
  unfold docMap
  obtain ⟨ext, heq, -⟩ := dmapSem_append sem (dmapBM bm [])
  rw [heq, List.map_append]
  exact List.mem_append_left _ (dmapBM_texts_sub bm [] d hd)

theorem docMap_keys_sem (bm sem : List Doc) :
    ∀ d ∈ sem, d.text ∈ (docMap bm sem).map Prod.fst := by
  intro d hd
  exact dmapSem_covers sem (dmapBM bm []) d hd

theorem docMap_lex_precedence (bm sem : List Doc) :
    ∀ p ∈ docMap bm sem, p.1 ∈ bm.map (fun d => d.text) → p.2 ∈ bm := by
  intro p hp hbm
  unfold docMap at hp
  obtain ⟨ext, heq, hcond⟩ := dmapSem_append sem (dmapBM bm [])
  rw [heq] at hp
  rcases List.mem_append.1 hp with h | h
  · rcases dmapBM_mem bm [] p h with h' | h'
    · simp at h'
    · exact h'
  · obtain ⟨d, hd, htext⟩ := List.mem_map.1 hbm
    exact absurd ((htext ▸ dmapBM_texts_sub bm [] d hd : p.1 ∈ _)) (hcond p h).2.1

theorem dmapSem_fresh (ds : List Doc) (m : List (String × Doc))
    (hnd : (ds.map (fun d => d.text)).Nodup)
    (hfresh : ∀ d ∈ ds, d.text ∉ m.map Prod.fst) :
    dmapSem ds m = m ++ ds.map (fun d => (d.text, d)) := by
  induction ds generalizing m with
  | nil => simp [dmapSem]
  | cons d ds ih =>
    rw [List.map_cons, List.nodup_cons] at hnd
    have hk : ¬hasKey m d.text := fun h =>
      hfresh d (List.mem_cons_self d ds) (hasKey_iff.1 h)
    rw [show dmapSem (d :: ds) m = dmapSem ds (if hasKey m d.text then m
      else setKey m d.text d) from rfl, if_neg hk]
    rw [setKey_of_not_mem d (fun hm => hfresh d (List.mem_cons_self d ds) hm)]
    rw [ih (m ++ [(d.text, d)]) hnd.2 ?_]
    · simp
    · intro d' hd'
      rw [List.map_append]
      intro hmem
      rcases List.mem_append.1 hmem with h | h
      · exact hfresh d' (List.mem_cons_of_mem d hd') h
      · simp only [List.map_cons, List.map_nil, List.mem_singleton] at h
        exact hnd.1 (h ▸ List.mem_map.2 ⟨d', hd', rfl⟩)

/-! Output structure of `reciprocal_rank_fusion` -/

theorem fused_keys_cases (bm sem : List Doc) (k : ℚ) :
    ∀ t ∈ (fusedScores bm sem k).map Prod.fst,
      t ∈ bm.map (fun d => d.text) ∨ t ∈ sem.map (fun d => d.text) := by
  intro t ht
  unfold fusedScores at ht
  rcases addList_keys_cases sem 1 _ t ht with h | h
  · rcases addList_keys_cases bm 1 [] t h with h' | h'
    · simp at h'
    · exact Or.inl h'
  · exact Or.inr h

theorem docMap_lookup_of_fused (bm sem : List Doc) (k : ℚ) :
    ∀ p ∈ fusedScores bm sem k,
      ∃ d, lookupKey (docMap bm sem) p.1 = some d ∧ d.text = p.1 := by
  intro p hp
  have hkey : p.1 ∈ (fusedScores bm sem k).map Prod.fst :=
    List.mem_map.2 ⟨p, hp, rfl⟩
  have hmem : p.1 ∈ (docMap bm sem).map Prod.fst := by
    rcases fused_keys_cases bm sem k p.1 hkey with h | h
    · obtain ⟨d, hd, htext⟩ := List.mem_map.1 h
      exact htext ▸ docMap_keys_bm bm sem d hd
    · obtain ⟨d, hd, htext⟩ := List.mem_map.1 h
      exact htext ▸ docMap_keys_sem bm sem d hd
  obtain ⟨d, hd⟩ := lookupKey_isSome_of_mem_keys hmem
  exact ⟨d, hd, docMap_text bm sem (p.1, d) (lookupKey_mem hd)⟩

theorem filterMap_lookup_map {m : List (String × Doc)} (l : List (String × ℚ))
    (h : ∀ p ∈ l, ∃ d, lookupKey m p.1 = some d ∧ d.text = p.1) :
    (l.filterMap (fun p => match lookupKey m p.1 with
        | some d => some (d, p.2)
        | none => none)).map (fun e => (e.1.text, e.2)) = l := by
  induction l with
  | nil => rfl
  | cons p l ih =>
    obtain ⟨d, hd, htext⟩ := h p (List.mem_cons_self p l)
    rw [List.filterMap_cons, hd]
    simp only [List.map_cons, htext]
    rw [ih (fun q hq => h q (List.mem_cons_of_mem p hq))]

theorem rrf_map_pair (bm sem : List Doc) (k : ℚ) :
    (reciprocal_rank_fusion bm sem k).map (fun e => (e.1.text, e.2)) =
      (fusedScores bm sem k).mergeSort rrfLe := by
  unfold reciprocal_rank_fusion
  apply filterMap_lookup_map
  intro p hp
  exact docMap_lookup_of_fused bm sem k p
    ((List.mergeSort_perm (fusedScores bm sem k) rrfLe).mem_iff.1 hp)

theorem rrfLe_trans : ∀ a b c : String × ℚ, rrfLe a b → rrfLe b c → rrfLe a c := by
  intro a b c hab hbc
  unfold rrfLe at *
  simp only [decide_eq_true_eq] at *
  exact le_trans hbc hab

theorem rrfLe_total : ∀ a b : String × ℚ, rrfLe a b || rrfLe b a := by
  intro a b
  unfold rrfLe
  simp only [Bool.or_eq_true, decide_eq_true_eq]
  exact le_total _ _

/-! ## Claim C4 -/

/-- C4: the output of `reciprocal_rank_fusion` is sorted by fused score
non-increasing, and the stable sort preserves the first-seen order (the
insertion order of `rrf_scores`, lexical pass first) among documents whose
fused scores tie — stated as: any correctly-ordered pair of the pre-sort
score list keeps its relative order in the output. -/
theorem rrf_sorted_and_stable (bm sem : List Doc) :
    List.Pairwise (fun a b : Doc × ℚ => b.2 ≤ a.2) (reciprocal_rank_fusion bm sem 60)
    ∧ ∀ p q : String × ℚ, q.2 ≤ p.2 → [p, q].Sublist (fusedScores bm sem 60) →
        [p, q].Sublist ((reciprocal_rank_fusion bm sem 60).map (fun e => (e.1.text, e.2))) := by
  constructor
  · unfold reciprocal_rank_fusion
    have hsorted := List.sorted_mergeSort rrfLe_trans rrfLe_total
      (fusedScores bm sem 60)
    apply List.Pairwise.filterMap _ ?_ hsorted
    intro p p' hpp' b hb b' hb'
    cases hl : lookupKey (docMap bm sem) p.1 with
    | none => rw [hl] at hb; simp at hb
    | some d =>
      rw [hl] at hb
      cases hl' : lookupKey (docMap bm sem) p'.1 with
      | none => rw [hl'] at hb'; simp at hb'
      | some d' =>
        rw [hl'] at hb'
        simp only [Option.mem_def, Option.some_inj] at hb hb'
        rw [← hb, ← hb']
        unfold rrfLe at hpp'
        exact of_decide_eq_true hpp'
  · intro p q hle hsub
    rw [rrf_map_pair]
    exact List.pair_sublist_mergeSort rrfLe_trans rrfLe_total
      (by unfold rrfLe; exact decide_eq_true hle) hsub

unseal Rat.mul Rat.inv Rat.add Rat.sub Nat.gcd in
theorem fused_sample_eval :
    fusedScores [docA, docB] [] 60 = [("A", 2/305), ("B", 1/155)] := by decide

/-- Witness for C4: on the two-document lexical list, the pre-sort pair
(`A` before `B`, scores 2/305 ≥ 1/155) keeps its order in the output. -/
theorem rrf_sorted_and_stable_witness :
    (((1 : ℚ)/155 ≤ 2/305) ∧
        [(("A" : String), (2 : ℚ)/305), (("B" : String), (1 : ℚ)/155)].Sublist
          (fusedScores [docA, docB] [] 60)) ∧
      [(("A" : String), (2 : ℚ)/305), (("B" : String), (1 : ℚ)/155)].Sublist
        ((reciprocal_rank_fusion [docA, docB] [] 60).map (fun e => (e.1.text, e.2))) := by
  have h1 : (1 : ℚ)/155 ≤ 2/305 := by norm_num
  have h2 : [(("A" : String), (2 : ℚ)/305), (("B" : String), (1 : ℚ)/155)].Sublist
      (fusedScores [docA, docB] [] 60) := by
    rw [fused_sample_eval]
  exact ⟨⟨h1, h2⟩, (rrf_sorted_and_stable [docA, docB] []).2 _ _ h1 h2⟩

/-! ## Claim C10 -/

/-- C10: the fusion output contains each distinct chunk text at most once
(deduplication on exact text equality), every returned entry has a fused
score strictly greater than zero, and a document whose text occurs in the
lexical list keeps a full record from the lexical list (in particular a
document present in both lists keeps its lexical record, the list it was
first encountered in). -/
theorem rrf_dedup_pos_lex (bm sem : List Doc) :
    ((reciprocal_rank_fusion bm sem 60).map (fun e => e.1.text)).Nodup
    ∧ (∀ e ∈ reciprocal_rank_fusion bm sem 60, 0 < e.2)
    ∧ (∀ e ∈ reciprocal_rank_fusion bm sem 60,
        e.1.text ∈ bm.map (fun d => d.text) → e.1 ∈ bm) := by
  refine ⟨?_, ?_, ?_⟩
  · have hmap : (reciprocal_rank_fusion bm sem 60).map (fun e => e.1.text) =
        ((reciprocal_rank_fusion bm sem 60).map (fun e => (e.1.text, e.2))).map Prod.fst := by
      rw [List.map_map]
      rfl
    rw [hmap, rrf_map_pair]
    have hperm := (List.mergeSort_perm (fusedScores bm sem 60) rrfLe).map Prod.fst
    rw [List.Perm.nodup_iff hperm]
    unfold fusedScores
    exact addList_nodup_keys sem 1 _ (addList_nodup_keys bm 1 [] (by simp))
  · intro e he
    unfold reciprocal_rank_fusion at he
    rw [List.mem_filterMap] at he
    obtain ⟨p, hp, hf⟩ := he
    cases hl : lookupKey (docMap bm sem) p.1 with
    | none => rw [hl] at hf; simp at hf
    | some d =>
      rw [hl] at hf
      simp only [Option.some_inj] at hf
      have hpf : p ∈ fusedScores bm sem 60 :=
        (List.mergeSort_perm (fusedScores bm sem 60) rrfLe).mem_iff.1 hp
      have hpos : 0 < p.2 := by
        have := addList_pos W_SEM 60 (by norm_num [W_SEM]) (by norm_num)
          sem 1 _ (addList_pos W_BM25 60 (by norm_num [W_BM25]) (by norm_num)
            bm 1 [] (by simp))
        exact this p hpf
      rw [← hf]
      exact hpos
  · intro e he htext
    unfold reciprocal_rank_fusion at he
    rw [List.mem_filterMap] at he
    obtain ⟨p, hp, hf⟩ := he
    cases hl : lookupKey (docMap bm sem) p.1 with
    | none => rw [hl] at hf; simp at hf
    | some d =>
      rw [hl] at hf
      simp only [Option.some_inj] at hf
      have hmem : (p.1, d) ∈ docMap bm sem := lookupKey_mem hl
      have hdt : d.text = p.1 := docMap_text bm sem (p.1, d) hmem
      have he1 : e.1 = d := by rw [← hf]
      rw [he1]
      apply docMap_lex_precedence bm sem (p.1, d) hmem
      rw [← hdt]
      rw [he1] at htext
      exact htext

unseal Rat.mul Rat.inv Rat.add Rat.sub Nat.gcd List.merge List.mergeSort in
theorem rrf_sample_eval :
    reciprocal_rank_fusion [docA] [docB2] 60 = [(docB2, 3/305), (docA, 2/305)] := by
  decide

/-- Witness for C10: in the fusion of `[docA]` with `[docB2]`, the entry for
`docA` (present in the lexical list) has positive score and carries the
lexical record. -/
theorem rrf_dedup_pos_lex_witness :
    ((docA, (2 : ℚ)/305) ∈ reciprocal_rank_fusion [docA] [docB2] 60
      ∧ (docA, (2 : ℚ)/305).1.text ∈ [docA].map (fun d => d.text))
    ∧ (0 : ℚ) < (docA, (2 : ℚ)/305).2
    ∧ (docA, (2 : ℚ)/305).1 ∈ [docA] := by
  have hm : (docA, (2 : ℚ)/305) ∈ reciprocal_rank_fusion [docA] [docB2] 60 := by
    rw [rrf_sample_eval]
    exact List.mem_cons_of_mem _ (List.mem_singleton.2 rfl)
  have ht : (docA, (2 : ℚ)/305).1.text ∈ [docA].map (fun d => d.text) := by
    simp [docA]
  exact ⟨⟨hm, ht⟩, (rrf_dedup_pos_lex [docA] [docB2]).2.1 _ hm,
    (rrf_dedup_pos_lex [docA] [docB2]).2.2 _ hm ht⟩

/-! ## Claim C1 -/

theorem lookupScore_mem {m : List (String × ℚ)} {t : String} {v : ℚ}
    (h : lookupScore m t = some v) : (t, v) ∈ m := by
  induction m with
  | nil => simp [lookupScore] at h
  | cons p m ih =>
    by_cases hp : p.1 = t
    · simp only [lookupScore, hp, if_true, Option.some_inj] at h
      exact List.mem_cons.2 (Or.inl (by rw [← h, ← hp]))
    · simp only [lookupScore, hp, if_false] at h
      exact List.mem_cons.2 (Or.inr (ih h))

theorem rankFrom_eq_none {t : String} {ds : List Doc} {r : Nat} :
    rankFrom t ds r = none ↔ t ∉ ds.map (fun d => d.text) := by
  induction ds generalizing r with
  | nil => simp [rankFrom]
  | cons d ds ih =>
    by_cases hd : d.text = t
    · simp [rankFrom, hd]
    · simp only [rankFrom, hd, if_false, List.map_cons, List.mem_cons]
      rw [ih]
      constructor
      · intro h hmem
        rcases hmem with h' | h'
        · exact hd h'.symm
        · exact h h'
      · intro h
        exact fun hmem => h (Or.inr hmem)

/-- C1: for candidate lists with distinct texts and any document text
appearing in at least one of them, the fusion output contains an entry for
that text whose fused score is
`W_BM25 · 1/(60 + rank_lex) + W_SEM · 1/(60 + rank_sem)`, a term being `0`
when the document is absent from that list (weights 0.4 and 0.6, K = 60). -/
theorem rrf_score_formula (bm sem : List Doc) (t : String)
    (hbm : (bm.map (fun d => d.text)).Nodup)
    (hsem : (sem.map (fun d => d.text)).Nodup)
    (ht : t ∈ bm.map (fun d => d.text) ∨ t ∈ sem.map (fun d => d.text)) :
    ∃ e ∈ reciprocal_rank_fusion bm sem 60, e.1.text = t ∧
      e.2 = W_BM25 * rrfTerm 60 (rank1 bm t) + W_SEM * rrfTerm 60 (rank1 sem t) := by
  have hlook : lookupScore (fusedScores bm sem 60) t =
      some (W_BM25 * rrfTerm 60 (rank1 bm t) + W_SEM * rrfTerm 60 (rank1 sem t)) := by
    unfold fusedScores rank1
    rw [addList_lookup sem 1 _ t hsem, addList_lookup bm 1 [] t hbm]
    rw [show lookupScore [] t = none from rfl]
    cases hb : rankFrom t bm 1 with
    | none =>
      cases hs : rankFrom t sem 1 with
      | none =>
        rcases ht with h | h
        · exact absurd (rankFrom_eq_none.1 hb) (fun hn => hn h)
        · exact absurd (rankFrom_eq_none.1 hs) (fun hn => hn h)
      | some j =>
        simp only [rrfTerm, Option.getD_none, Option.some_inj]
        ring
    | some i =>
      cases hs : rankFrom t sem 1 with
      | none =>
        simp only [rrfTerm, Option.getD_none, Option.getD_some, Option.some_inj]
        ring
      | some j =>
        simp only [rrfTerm, Option.getD_none, Option.getD_some, Option.some_inj]
        ring
  have hfused : (t, W_BM25 * rrfTerm 60 (rank1 bm t) + W_SEM * rrfTerm 60 (rank1 sem t)) ∈
      fusedScores bm sem 60 := lookupScore_mem hlook
  have hsorted : (t, W_BM25 * rrfTerm 60 (rank1 bm t) + W_SEM * rrfTerm 60 (rank1 sem t)) ∈
      (fusedScores bm sem 60).mergeSort rrfLe :=
    (List.mergeSort_perm (fusedScores bm sem 60) rrfLe).mem_iff.2 hfused
  obtain ⟨d, hd, htext⟩ := docMap_lookup_of_fused bm sem 60 _ hfused
  refine ⟨(d, W_BM25 * rrfTerm 60 (rank1 bm t) + W_SEM * rrfTerm 60 (rank1 sem t)), ?_, htext, rfl⟩
  unfold reciprocal_rank_fusion
  rw [List.mem_filterMap]
  exact ⟨_, hsorted, by rw [hd]⟩

/-- Witness for C1: `"B"` appears in both concrete lists (lexical rank 2,
semantic rank 1). -/
theorem rrf_score_formula_witness :
    (([docA, docB].map (fun d => d.text)).Nodup
      ∧ ([docB2, docC].map (fun d => d.text)).Nodup
      ∧ ("B" ∈ [docA, docB].map (fun d => d.text)
          ∨ "B" ∈ [docB2, docC].map (fun d => d.text)))
    ∧ ∃ e ∈ reciprocal_rank_fusion [docA, docB] [docB2, docC] 60, e.1.text = "B" ∧
        e.2 = W_BM25 * rrfTerm 60 (rank1 [docA, docB] "B")
          + W_SEM * rrfTerm 60 (rank1 [docB2, docC] "B") := by
  refine ⟨⟨by decide, by decide, Or.inl (by decide)⟩, ?_⟩
  exact rrf_score_formula [docA, docB] [docB2, docC] "B" (by decide) (by decide)
    (Or.inl (by decide))

/-! ## Claim C6 -/

theorem rankWeights_filterMap_docs {w k : ℚ} (ds : List Doc) (r : Nat)
    (m : List (String × Doc)) (hl : ∀ d ∈ ds, lookupKey m d.text = some d) :
    ((rankWeights w k ds r).filterMap (fun p => match lookupKey m p.1 with
        | some d => some (d, p.2)
        | none => none)).map (fun e => e.1) = ds := by
  induction ds generalizing r with
  | nil => rfl
  | cons d ds ih =>
    rw [show rankWeights w k (d :: ds) r =
      (d.text, w * (1 / (k + (r : ℚ)))) :: rankWeights w k ds (r + 1) from rfl]
    rw [List.filterMap_cons]
    rw [show (match lookupKey m (d.text, w * (1 / (k + (r : ℚ)))).1 with
        | some d' => some (d', (d.text, w * (1 / (k + (r : ℚ)))).2)
        | none => none) = some (d, w * (1 / (k + (r : ℚ)))) by
      rw [hl d (List.mem_cons_self d ds)]]
    rw [List.map_cons]
    rw [ih (r + 1) (fun d' hd' => hl d' (List.mem_cons_of_mem d hd'))]

/-- C6: querying a subject with no built lexical index raises no error:
the lexical candidate list is empty, the hybrid result is exactly the
fusion of the empty lexical list with the semantic results, and (for
semantic results with distinct texts) that fusion returns the semantic
documents in their original, semantic-only order. -/
theorem search_no_index (r : HybridRetriever) (q subj : String) (k : Nat)
    (h : r.bm25Indices subj = none) :
    search r q subj k =
      (reciprocal_rank_fusion [] (r.semanticSearch q subj (k * 2)) 60).take k
    ∧ (((r.semanticSearch q subj (k * 2)).map (fun d => d.text)).Nodup →
        (reciprocal_rank_fusion [] (r.semanticSearch q subj (k * 2)) 60).map (fun e => e.1) =
          r.semanticSearch q subj (k * 2)) := by
  constructor
  · unfold search bm25_search
    rw [h]
  · intro hnd
    set sem := r.semanticSearch q subj (k * 2) with hsem
    have hfused : fusedScores [] sem 60 = rankWeights W_SEM 60 sem 1 := by
      unfold fusedScores
      rw [show addList W_BM25 60 [] 1 ([] : List (String × ℚ)) = [] from rfl]
      rw [addList_closed sem 1 [] hnd (by simp)]
      simp
    have hsorted : List.Pairwise (fun a b : String × ℚ => rrfLe a b)
        (rankWeights W_SEM 60 sem 1) := by
      refine (rankWeights_strict_sorted (by norm_num [W_SEM]) (by norm_num) sem 1).imp ?_
      intro a b hab
      unfold rrfLe
      exact decide_eq_true (le_of_lt hab)
    have hms : (fusedScores [] sem 60).mergeSort rrfLe = rankWeights W_SEM 60 sem 1 := by
      rw [hfused]
      exact List.mergeSort_of_sorted hsorted
    have hdm : docMap [] sem = sem.map (fun d => (d.text, d)) := by
      unfold docMap
      rw [show dmapBM [] ([] : List (String × Doc)) = [] from rfl]
      rw [dmapSem_fresh sem [] hnd (by simp)]
      simp
    unfold reciprocal_rank_fusion
    rw [hms]
    apply rankWeights_filterMap_docs
    intro d hd
    rw [hdm]
    apply lookupKey_eq_of_mem
    · rw [List.map_map]
      exact hnd
    · exact List.mem_map.2 ⟨d, hd, rfl⟩

/-- Witness for C6 on a retriever with no lexical index for any subject. -/
theorem search_no_index_witness :
    noIndexRetriever.bm25Indices "math" = none ∧
      (search noIndexRetriever "q" "math" 5 =
          (reciprocal_rank_fusion []
            (noIndexRetriever.semanticSearch "q" "math" (5 * 2)) 60).take 5
        ∧ (((noIndexRetriever.semanticSearch "q" "math" (5 * 2)).map
              (fun d => d.text)).Nodup →
            (reciprocal_rank_fusion []
              (noIndexRetriever.semanticSearch "q" "math" (5 * 2)) 60).map (fun e => e.1) =
              noIndexRetriever.semanticSearch "q" "math" (5 * 2))) :=
  ⟨rfl, search_no_index noIndexRetriever "q" "math" 5 rfl⟩

end ThanaweyaRAG
